import Mathlib

/-!
Verification of the sqlyac statement parser, variable interpolation and
risk classifier (shallow embedding of src/main.go, plus the earlier
variable-free parser from the repository history for the refinement claim).

Strings are modelled as lists of characters (a `Line` is one input line,
a file is a `List Line` as produced by the line scanner, so lines carry no
newline characters). Go's `strings.TrimSpace` and the RE2 character
classes are modelled on the ASCII range, which covers every character the
keywords, markers and regular expressions of the program mention.
-/

namespace Sqlyac

abbrev Line := List Char

/-- Character class of Go `strings.TrimSpace` restricted to ASCII:
space, tab, newline, vertical tab, form feed, carriage return. -/
def isSpaceTrim (c : Char) : Bool :=
  c = ' ' || c = '\t' || c = '\n' || c = '\x0b' || c = '\x0c' || c = '\r'

/-- RE2 character class of the regular-expression escape for whitespace:
space, tab, newline, form feed, carriage return (no vertical tab). -/
def isSpaceRE (c : Char) : Bool :=
  c = ' ' || c = '\t' || c = '\n' || c = '\x0c' || c = '\r'

/-- RE2 word-character class: ASCII letters, digits and underscore. -/
def isWordChar (c : Char) : Bool :=
  c.isAlphanum || c = '_'

/-- Go `strings.TrimSpace`: drop leading and trailing whitespace. -/
def trimSpace (l : Line) : Line :=
  ((l.dropWhile isSpaceTrim).reverse.dropWhile isSpaceTrim).reverse

/-- `leadsWith pat s` holds when `pat` is an initial segment of `s`
(Go `strings.HasPrefix s pat`). -/
def leadsWith : Line → Line → Bool
  | [], _ => true
  | _ :: _, [] => false
  | a :: as, b :: bs => a = b && leadsWith as bs

/-- Go `strings.Contains s sub`: some suffix of `s` starts with `sub`. -/
def strContains (s sub : Line) : Bool :=
  match s with
  | [] => leadsWith sub []
  | _ :: r => leadsWith sub s || strContains r sub

/-- ASCII lowering of one character (the fragment of Go `strings.ToLower`
relevant to the ASCII keyword lists). -/
def lowerChar (c : Char) : Char :=
  if 'A' ≤ c && c ≤ 'Z' then Char.ofNat (c.toNat + 32) else c

/-- Go `strings.ToLower` on a line, ASCII fragment. -/
def toLowerLine (l : Line) : Line :=
  l.map lowerChar

/-- The schema-change keyword list of `containsSchemaChanges` in main.go. -/
def schemaKeywords : List Line :=
  ["drop table".data, "drop database".data, "drop schema".data,
   "alter table".data, "alter database".data, "alter schema".data,
   "create table".data, "create database".data, "create schema".data,
   "truncate table".data, "truncate".data]

/-- main.go `containsSchemaChanges`: lower-case the text, return true as
soon as one keyword is a substring. -/
def containsSchemaChanges (sql : Line) : Bool :=
  let l := toLowerLine sql
  schemaKeywords.any (fun kw => strContains l kw)

/-- The row-mutation keyword list of `containsUpdates` in main.go. -/
def updateKeywords : List Line :=
  ["update ".data, "delete ".data, "delete from".data, "insert".data]

/-- main.go `containsUpdates`: lower-case the text, return true as soon
as one keyword is a substring. -/
def containsUpdates (sql : Line) : Bool :=
  let l := toLowerLine sql
  updateKeywords.any (fun kw => strContains l kw)

/-!
The three regular expressions of `parseSQL` in main.go, modelled directly.
Each `FindStringSubmatch`/`MatchString` search is a left-to-right scan over
start positions; at every position the pattern pieces are matched greedily.
Greedy matching without backtracking agrees with RE2 leftmost-first
semantics here because adjacent pattern pieces draw from disjoint
character classes (whitespace, word characters and the literal characters
involved never overlap), and because the lines the searches receive are
whitespace-trimmed where trimming matters (see the call sites below).
-/

/-- One attempt of the name regular expression (dash dash, optional
whitespace, the literal at-name token, optional whitespace, captured word
characters) anchored at the head of `cs`; returns the captured name. -/
def matchNameAt (cs : Line) : Option Line :=
  match cs with
  | '-' :: '-' :: r1 =>
    let r2 := r1.dropWhile isSpaceRE
    if leadsWith "@name".data r2 then
      let r3 := (r2.drop 5).dropWhile isSpaceRE
      let nm := r3.takeWhile isWordChar
      if nm = [] then none else some nm
    else none
  | _ => none

/-- `nameRegex.FindStringSubmatch line` in main.go: leftmost match of the
name pattern anywhere in the line, returning the captured name. -/
def findName : Line → Option Line
  | [] => none
  | c :: rest =>
    match matchNameAt (c :: rest) with
    | some nm => some nm
    | none => findName rest

/-- `separatorRegex.MatchString` in main.go on an already-trimmed line:
the whole line is three or more dashes. -/
def isSeparatorLine (t : Line) : Bool :=
  decide (3 ≤ t.length) && t.all (fun c => c = '-')

/-- The lazily-captured value piece of the variable regular expression:
at least one character, extended minimally until a semicolon follows or
the line ends, so the capture is the head character followed by
everything up to the next semicolon. -/
def matchValue : Line → Option Line
  | [] => none
  | c :: rest => some (c :: rest.takeWhile (fun d => d ≠ ';'))

/-- One attempt of the variable regular expression (literal SET,
whitespace, at sign, captured word-character name, optional whitespace,
equals sign, optional whitespace, lazily captured value) anchored at the
head of `cs`; returns the captured name and raw value. -/
def matchVarAt (cs : Line) : Option (Line × Line) :=
  if leadsWith "SET".data cs then
    match cs.drop 3 with
    | [] => none
    | c :: r1 =>
      if isSpaceRE c then
        match (c :: r1).dropWhile isSpaceRE with
        | '@' :: r3 =>
          let nm := r3.takeWhile isWordChar
          if nm = [] then none
          else
            match (r3.drop nm.length).dropWhile isSpaceRE with
            | '=' :: r5 =>
              match matchValue (r5.dropWhile isSpaceRE) with
              | some v => some (nm, v)
              | none => none
            | _ => none
        | _ => none
      else none
  else none

/-- `variableRegex.FindStringSubmatch` in main.go applied to the trimmed
line: leftmost match of the variable pattern anywhere in the line.
The model assumes its argument carries no trailing whitespace, which the
call site guarantees by trimming first. -/
def findVarDef : Line → Option (Line × Line)
  | [] => none
  | c :: rest =>
    match matchVarAt (c :: rest) with
    | some r => some r
    | none => findVarDef rest

/-- The `Query` record of main.go. -/
structure Query where
  name : Line
  sql : Line
deriving DecidableEq, Repr

/-- The variable table: Go builds a map by successive overwriting stores;
modelled as the list of stores in order, read back by `lookupVar`, which
returns the most recent store for a name. -/
abbrev VarTable := List (Line × Line)

/-- Reading the Go map: the value of the last store for `n`, if any. -/
def lookupVar (vars : VarTable) (n : Line) : Option Line :=
  (vars.reverse.find? (fun p => p.1 = n)).map (fun p => p.2)

/-- The loop state of `parseSQL` in main.go: emitted queries, the current
query pointer (`none` before the first separator), the accumulated
content lines, and the variable table. -/
structure PState where
  queries : List Query
  cur : Option Query
  sqlLines : List Line
  vars : VarTable
deriving DecidableEq, Repr

/-- `strings.Join lines "\n"`. -/
def joinLines (ls : List Line) : Line :=
  List.intercalate ['\n'] ls

/-- One iteration of the scanner loop of `parseSQL` in main.go, checking
in order: variable definition (on the trimmed line), separator (on the
trimmed line), name comment (on the raw line), other dash-dash comment
(on the trimmed line), and otherwise content accumulation. -/
def stepLine (s : PState) (line : Line) : PState :=
  match findVarDef (trimSpace line) with
  | some (n, v) => { s with vars := s.vars ++ [(n, trimSpace v)] }
  | none =>
    if isSeparatorLine (trimSpace line) then
      match s.cur with
      | some q =>
        if q.name ≠ [] then
          { queries := s.queries ++ [{ q with sql := trimSpace (joinLines s.sqlLines) }],
            cur := some ⟨[], []⟩, sqlLines := [], vars := s.vars }
        else { s with cur := some ⟨[], []⟩, sqlLines := [] }
      | none => { s with cur := some ⟨[], []⟩, sqlLines := [] }
    else
      match findName line with
      | some nm =>
        match s.cur with
        | some q => { s with cur := some { q with name := nm } }
        | none => s
      | none =>
        if leadsWith "--".data (trimSpace line) then s
        else
          match s.cur with
          | some _ => { s with sqlLines := s.sqlLines ++ [line] }
          | none => s

/-- The trailing-query flush after the scanner loop of `parseSQL`. -/
def finalize (s : PState) : List Query :=
  match s.cur with
  | some q =>
    if q.name ≠ [] then
      s.queries ++ [{ q with sql := trimSpace (joinLines s.sqlLines) }]
    else s.queries
  | none => s.queries

/-- `parseSQL` of main.go on the list of scanned lines: the emitted
queries in order and the variable table. -/
def parseSQL (lines : List Line) : List Query × VarTable :=
  let s := lines.foldl stepLine ⟨[], none, [], []⟩
  (finalize s, s.vars)

/-- The single left-to-right replacement pass of
`variableRefRegex.ReplaceAllStringFunc` in `interpolateVariables`:
each at sign followed by at least one word character starts a token whose
name is the maximal word-character run; a token whose name is in the
table is replaced by the stored value verbatim and scanning resumes after
the token (never inside the emitted value); any other text is copied. -/
def interpCore (vars : VarTable) : Line → Line
  | [] => []
  | '@' :: rest =>
    let nm := rest.takeWhile isWordChar
    if nm = [] then '@' :: interpCore vars rest
    else
      match lookupVar vars nm with
      | some v => v ++ interpCore vars (rest.drop nm.length)
      | none => '@' :: nm ++ interpCore vars (rest.drop nm.length)
  | c :: rest => c :: interpCore vars rest
termination_by l => l.length
decreasing_by
  all_goals simp_all [List.length_drop]
  all_goals omega

/-- `interpolateVariables` of main.go: runs the replacement pass and
returns it on the (always nil) error channel's success side. -/
def interpolateVariables (sql : Line) (vars : VarTable) : Except String Line :=
  .ok (interpCore vars sql)

/-!
Specification-side view of a text for the interpolation claims: a text
split into literal pieces and variable-reference tokens. A well-formed
split (`segsOk`) is one whose flattening puts every token of the text in
a `ref` piece: literal pieces contain no token start, reference names are
nonempty word-character runs, and no token spans a piece boundary.
-/

/-- A piece of a text: literal text, or a variable-reference token
(stored without its at sign). -/
inductive Seg where
  | lit (s : Line)
  | ref (nm : Line)
deriving DecidableEq, Repr

/-- The text a piece stands for. -/
def Seg.flat : Seg → Line
  | .lit s => s
  | .ref nm => '@' :: nm

/-- The text a list of pieces stands for. -/
def flatten (segs : List Seg) : Line :=
  (segs.map Seg.flat).flatten

/-- What the specification says interpolation does to one piece: a
literal piece is kept, a reference token is replaced by the stored value
when its name is in the table and kept verbatim otherwise. -/
def Seg.render (vars : VarTable) : Seg → Line
  | .lit s => s
  | .ref nm =>
    match lookupVar vars nm with
    | some v => v
    | none => '@' :: nm

/-- The line does not start with a word character (so a preceding token
or at sign cannot extend into it). -/
def lineNotWord (t : Line) : Bool :=
  match t with
  | [] => true
  | c :: _ => !isWordChar c

/-- No token starts inside the line: no at sign is followed by a word
character. -/
def noTok : Line → Bool
  | [] => true
  | c :: r => (!(c = '@') || lineNotWord r) && noTok r

/-- The flattening of the remaining pieces does not start with a word
character. -/
def restNotWord (rest : List Seg) : Bool :=
  lineNotWord (flatten rest)

/-- Well-formed piece list: every token of the flattened text is exactly
one `ref` piece. -/
def segsOk : List Seg → Bool
  | [] => true
  | .lit s :: rest =>
    noTok s && (s.getLast? ≠ some '@' || restNotWord rest) && segsOk rest
  | .ref nm :: rest =>
    nm ≠ [] && nm.all isWordChar && restNotWord rest && segsOk rest

/-!
The earlier `parseSQL` (src/unnamed/part_002), before variable support:
the same scanner loop without the variable-definition check and without a
variable table.
-/

/-- The loop state of the earlier `parseSQL`. -/
structure PStateOld where
  queries : List Query
  cur : Option Query
  sqlLines : List Line
deriving DecidableEq, Repr

/-- One iteration of the scanner loop of the earlier `parseSQL`:
separator, name comment, other comment, content accumulation. -/
def stepLineOld (s : PStateOld) (line : Line) : PStateOld :=
  if isSeparatorLine (trimSpace line) then
    match s.cur with
    | some q =>
      if q.name ≠ [] then
        { queries := s.queries ++ [{ q with sql := trimSpace (joinLines s.sqlLines) }],
          cur := some ⟨[], []⟩, sqlLines := [] }
      else { s with cur := some ⟨[], []⟩, sqlLines := [] }
    | none => { s with cur := some ⟨[], []⟩, sqlLines := [] }
  else
    match findName line with
    | some nm =>
      match s.cur with
      | some q => { s with cur := some { q with name := nm } }
      | none => s
    | none =>
      if leadsWith "--".data (trimSpace line) then s
      else
        match s.cur with
        | some _ => { s with sqlLines := s.sqlLines ++ [line] }
        | none => s

/-- The trailing-query flush of the earlier `parseSQL`. -/
def finalizeOld (s : PStateOld) : List Query :=
  match s.cur with
  | some q =>
    if q.name ≠ [] then
      s.queries ++ [{ q with sql := trimSpace (joinLines s.sqlLines) }]
    else s.queries
  | none => s.queries

/-- The earlier `parseSQL` on the list of scanned lines. -/
def parseSQLOld (lines : List Line) : List Query :=
  finalizeOld (lines.foldl stepLineOld ⟨[], none, []⟩)

/-- The variable-free part of the current parser state (the part the
emitted statements depend on). -/
def dropVars (s : PState) : PStateOld :=
  ⟨s.queries, s.cur, s.sqlLines⟩

/-!
Well-formed block files, for the statement-count claim: a block is a
separator line, a name comment, then content lines that neither close the
block nor rename it.
-/

/-- A source block: its annotated name and its raw content lines. -/
structure Block where
  name : Line
  content : List Line
deriving Repr

/-- The canonical name comment for a block. -/
def nameLine (nm : Line) : Line :=
  "-- @name ".data ++ nm

/-- The lines a block contributes to the file: a separator, the name
comment, then the content lines. -/
def blockLines (b : Block) : List Line :=
  "---".data :: nameLine b.name :: b.content

/-- A file made of delimited blocks. -/
def mkFile (bs : List Block) : List Line :=
  (bs.map blockLines).flatten

/-- A line that stays inside its block: not a separator and carrying no
name comment (it may still be a plain comment or a variable definition,
which are dropped from the statement text). -/
def contentish (l : Line) : Bool :=
  !isSeparatorLine (trimSpace l) && (findName l).isNone

/-- A line the parser keeps in the statement text: neither a variable
definition nor a dash-dash comment. -/
def keepLine (l : Line) : Bool :=
  (findVarDef (trimSpace l)).isNone && !leadsWith "--".data (trimSpace l)

/-- Well-formed block: nonempty word-character name whose name comment is
not mistaken for a variable definition, and content lines that stay
inside the block. -/
def blockOk (b : Block) : Bool :=
  b.name ≠ [] && b.name.all isWordChar &&
    (findVarDef (trimSpace (nameLine b.name))).isNone && b.content.all contentish

/-- The statement a well-formed block denotes: its name, and its kept
content lines joined by newlines and trimmed. -/
def blockQuery (b : Block) : Query :=
  ⟨b.name, trimSpace (joinLines (b.content.filter keepLine))⟩

/-- Specification-side description of the variable table (the claim's
words): the value for a name is the trimmed captured value of the last
line of the file whose trimmed text matches the variable-definition
pattern with that name. -/
def lastDefValue (lines : List Line) (n : Line) : Option Line :=
  (((lines.filterMap (fun l => findVarDef (trimSpace l))).reverse.find?
      (fun p => p.1 = n)).map (fun p => trimSpace p.2))

end Sqlyac

namespace Sqlyac

example : "ab".data = ['a', 'b'] := by decide

example :
    parseSQLOld ["---".data, "-- @name A".data, "SELECT 1;".data, "---".data] =
      [⟨"A".data, "SELECT 1;".data⟩] := by decide

example :
    (parseSQL (mkFile [⟨"A".data, ["SELECT 1;".data]⟩, ⟨"B".data, ["SELECT 2;".data]⟩])).1 =
      [⟨"A".data, "SELECT 1;".data⟩, ⟨"B".data, "SELECT 2;".data⟩] := by decide

example :
    interpCore [("x".data, "@y zz".data), ("y".data, "BAD".data)] "a @x b".data =
      "a @y zz b".data := by
  simp [interpCore, lookupVar, isWordChar]

example : interpCore [("x".data, "1".data)] "@x@x @missing".data =
    "11 @missing".data := by
  simp [interpCore, lookupVar, isWordChar]

/-! ### Character-class lemmas -/

theorem word_not_spaceTrim (c : Char) (h : isWordChar c = true) :
    isSpaceTrim c = false := by
  rcases hc : isSpaceTrim c
  · rfl
  · exfalso
    have hd : c = ' ' ∨ c = '\t' ∨ c = '\n' ∨ c = '\x0b' ∨ c = '\x0c' ∨ c = '\r' := by
      simpa [isSpaceTrim, or_assoc] using hc
    rcases hd with rfl | rfl | rfl | rfl | rfl | rfl <;> exact absurd h (by decide)

theorem word_not_spaceRE (c : Char) (h : isWordChar c = true) :
    isSpaceRE c = false := by
  rcases hc : isSpaceRE c
  · rfl
  · exfalso
    have hd : c = ' ' ∨ c = '\t' ∨ c = '\n' ∨ c = '\x0c' ∨ c = '\r' := by
      simpa [isSpaceRE, or_assoc] using hc
    rcases hd with rfl | rfl | rfl | rfl | rfl <;> exact absurd h (by decide)

/-! ### Small list helpers -/

theorem takeWhile_all {p : Char → Bool} {l : Line} (h : l.all p = true) :
    l.takeWhile p = l := by
  induction l with
  | nil => rfl
  | cons c r ih =>
    simp only [List.all_cons, Bool.and_eq_true] at h
    simp [List.takeWhile_cons, h.1, ih h.2]

theorem takeWhile_nil_of_head {p : Char → Bool} {l : Line}
    (h : ∀ c, l.head? = some c → p c = false) : l.takeWhile p = [] := by
  cases l with
  | nil => rfl
  | cons c r => simp [List.takeWhile_cons, h c rfl]

theorem drop_takeWhile_length (p : Char → Bool) (l : Line) :
    l.drop (l.takeWhile p).length = l.dropWhile p := by
  induction l with
  | nil => rfl
  | cons c r ih =>
    by_cases h : p c
    · simp [List.takeWhile_cons, List.dropWhile_cons, h, ih]
    · simp [List.takeWhile_cons, List.dropWhile_cons, h]

/-! ### Interpolation: unfolding equations in usable form -/

theorem interpCore_nil_input (vars : VarTable) : interpCore vars [] = [] := by
  simp [interpCore]

theorem interpCore_at (vars : VarTable) (rest : Line) :
    interpCore vars ('@' :: rest) =
      if rest.takeWhile isWordChar = [] then '@' :: interpCore vars rest
      else
        match lookupVar vars (rest.takeWhile isWordChar) with
        | some v => v ++ interpCore vars (rest.drop (rest.takeWhile isWordChar).length)
        | none =>
          '@' :: rest.takeWhile isWordChar ++
            interpCore vars (rest.drop (rest.takeWhile isWordChar).length) := by
  rw [interpCore]

theorem interpCore_cons (vars : VarTable) (c : Char) (rest : Line) (hc : c ≠ '@') :
    interpCore vars (c :: rest) = c :: interpCore vars rest := by
  rw [interpCore.eq_def]
  rcases rest with _ | ⟨d, r⟩ <;> simp_all

/-! ### Interpolation acting on well-formed piece lists -/

theorem takeWhile_word_nil {t : Line} (h : lineNotWord t = true) :
    t.takeWhile isWordChar = [] := by
  apply takeWhile_nil_of_head
  intro c hc
  cases t with
  | nil => simp at hc
  | cons d r =>
    simp only [List.head?_cons, Option.some.injEq] at hc
    subst hc
    simpa [lineNotWord] using h

theorem interpCore_lit (vars : VarTable) (s t : Line) (h1 : noTok s = true)
    (h2 : s.getLast? = some '@' → lineNotWord t = true) :
    interpCore vars (s ++ t) = s ++ interpCore vars t := by
  induction s with
  | nil => simp
  | cons c s' ih =>
    rw [noTok] at h1
    rcases Bool.and_eq_true _ _ |>.mp h1 with ⟨hhead, htail⟩
    by_cases hc : c = '@'
    · subst hc
      have hnw : lineNotWord s' = true := by simpa using hhead
      cases s' with
      | nil =>
        have ht : lineNotWord t = true := h2 (by simp)
        simp only [List.cons_append, List.nil_append]
        rw [interpCore_at, if_pos (takeWhile_word_nil ht)]
      | cons d r =>
        have hd : isWordChar d = false := by simpa [lineNotWord] using hnw
        have h2' : (d :: r).getLast? = some '@' → lineNotWord t = true := by
          intro hg
          exact h2 (by rw [List.getLast?_cons_cons]; exact hg)
        rw [List.cons_append, interpCore_at,
          if_pos (by simp [List.takeWhile_cons, hd])]
        have hih := ih htail h2'
        simp only [List.cons_append] at hih
        simp [hih]
    · have h2' : s'.getLast? = some '@' → lineNotWord t = true := by
        intro hg
        cases s' with
        | nil => simp at hg
        | cons d r => exact h2 (by rw [List.getLast?_cons_cons]; exact hg)
      rw [List.cons_append, interpCore_cons vars c _ hc, ih htail h2']
      simp

theorem interpCore_ref (vars : VarTable) (nm t : Line) (h1 : nm ≠ [])
    (h2 : nm.all isWordChar = true) (h3 : lineNotWord t = true) :
    interpCore vars (('@' :: nm) ++ t) = Seg.render vars (.ref nm) ++ interpCore vars t := by
  have htw : (nm ++ t).takeWhile isWordChar = nm := by
    rw [List.takeWhile_append_of_pos (by simpa [List.all_eq_true] using h2),
      takeWhile_word_nil h3, List.append_nil]
  have hdr : (nm ++ t).drop nm.length = t := List.drop_left nm t
  rw [List.cons_append, interpCore_at]
  rw [htw]
  rw [if_neg h1, Seg.render]
  cases hv : lookupVar vars nm <;> simp [hdr]

theorem interpCore_flatten (vars : VarTable) (segs : List Seg)
    (h : segsOk segs = true) :
    interpCore vars (flatten segs) = (segs.map (Seg.render vars)).flatten := by
  induction segs with
  | nil => simp [flatten, interpCore_nil_input]
  | cons sg rest ih =>
    cases sg with
    | lit s =>
      rw [segsOk] at h
      rcases Bool.and_eq_true _ _ |>.mp h with ⟨h12, hrest⟩
      rcases Bool.and_eq_true _ _ |>.mp h12 with ⟨hnt, hbd⟩
      have hflat : flatten (.lit s :: rest) = s ++ flatten rest := by
        simp [flatten, Seg.flat]
      rw [hflat, interpCore_lit vars s _ hnt, ih hrest]
      · simp [Seg.render]
      · intro hg
        rcases Bool.or_eq_true _ _ |>.mp hbd with hne | hrw
        · simp_all
        · simpa [restNotWord] using hrw
    | ref nm =>
      rw [segsOk] at h
      rcases Bool.and_eq_true _ _ |>.mp h with ⟨h123, hrest⟩
      rcases Bool.and_eq_true _ _ |>.mp h123 with ⟨h12, hrw⟩
      rcases Bool.and_eq_true _ _ |>.mp h12 with ⟨hne, hall⟩
      have hflat : flatten (.ref nm :: rest) = ('@' :: nm) ++ flatten rest := by
        simp [flatten, Seg.flat]
      rw [hflat, interpCore_ref vars nm _ (by simpa using hne) hall
        (by simpa [restNotWord] using hrw), ih hrest]
      simp

theorem interpCore_empty_aux :
    ∀ (n : Nat) (l : Line), l.length ≤ n → interpCore ([] : VarTable) l = l := by
  intro n
  induction n with
  | zero =>
    intro l h
    have hl : l = [] := List.eq_nil_of_length_eq_zero (Nat.le_zero.mp h)
    subst hl
    exact interpCore_nil_input []
  | succ n ih =>
    intro l h
    cases l with
    | nil => exact interpCore_nil_input []
    | cons c rest =>
      simp only [List.length_cons, Nat.add_le_add_iff_right] at h
      by_cases hc : c = '@'
      · subst hc
        rw [interpCore_at]
        by_cases hnm : rest.takeWhile isWordChar = []
        · rw [if_pos hnm, ih rest h]
        · rw [if_neg hnm]
          have hlk : lookupVar [] (rest.takeWhile isWordChar) = none := rfl
          rw [hlk]
          have hdrop : (rest.drop (rest.takeWhile isWordChar).length).length ≤ n := by
            calc (rest.drop (rest.takeWhile isWordChar).length).length
                ≤ rest.length := by simp [List.length_drop]
              _ ≤ n := h
          rw [ih _ hdrop, drop_takeWhile_length]
          simp [List.takeWhile_append_dropWhile]
      · rw [interpCore_cons [] c rest hc, ih rest h]

theorem interpCore_empty (l : Line) : interpCore ([] : VarTable) l = l :=
  interpCore_empty_aux l.length l (Nat.le_refl _)

/-! ### Parser: classification lemmas for one scanner step -/

theorem stepLine_var (s : PState) (line : Line) (n v : Line)
    (h : findVarDef (trimSpace line) = some (n, v)) :
    stepLine s line = { s with vars := s.vars ++ [(n, trimSpace v)] } := by
  unfold stepLine
  rw [h]

theorem stepLine_sep (s : PState) (line : Line)
    (hv : findVarDef (trimSpace line) = none)
    (hs : isSeparatorLine (trimSpace line) = true) :
    stepLine s line = ⟨finalize s, some ⟨[], []⟩, [], s.vars⟩ := by
  obtain ⟨qs, cur, sls, vs⟩ := s
  unfold stepLine finalize
  rw [hv]
  rcases cur with _ | q
  · simp [hs]
  · by_cases hn : q.name = []
    · simp [hs, hn]
    · simp [hs, hn]

theorem stepLine_name (s : PState) (line nm : Line)
    (hv : findVarDef (trimSpace line) = none)
    (hs : isSeparatorLine (trimSpace line) = false)
    (hn : findName line = some nm) :
    stepLine s line =
      match s.cur with
      | some q => { s with cur := some ⟨nm, q.sql⟩ }
      | none => s := by
  obtain ⟨qs, cur, sls, vs⟩ := s
  unfold stepLine
  rw [hv]
  rcases cur with _ | q <;> simp [hs, hn]

theorem stepLine_comment (s : PState) (line : Line)
    (hv : findVarDef (trimSpace line) = none)
    (hs : isSeparatorLine (trimSpace line) = false)
    (hn : findName line = none)
    (hcmt : leadsWith "--".data (trimSpace line) = true) :
    stepLine s line = s := by
  unfold stepLine
  rw [hv]
  simp [hs, hn, hcmt]

theorem stepLine_plain (s : PState) (line : Line)
    (hv : findVarDef (trimSpace line) = none)
    (hs : isSeparatorLine (trimSpace line) = false)
    (hn : findName line = none)
    (hcmt : leadsWith "--".data (trimSpace line) = false) :
    stepLine s line =
      match s.cur with
      | some _ => { s with sqlLines := s.sqlLines ++ [line] }
      | none => s := by
  obtain ⟨qs, cur, sls, vs⟩ := s
  unfold stepLine
  rw [hv]
  rcases cur with _ | q <;> simp [hs, hn, hcmt]

/-! ### Parser: the variable table built by the fold -/

theorem stepLine_vars_none (s : PState) (line : Line)
    (hv : findVarDef (trimSpace line) = none) :
    (stepLine s line).vars = s.vars := by
  by_cases hs : isSeparatorLine (trimSpace line) = true
  · rw [stepLine_sep s line hv hs]
  · rw [Bool.not_eq_true] at hs
    cases hn : findName line with
    | some nm =>
      rw [stepLine_name s line nm hv hs hn]
      cases s.cur <;> rfl
    | none =>
      by_cases hcmt : leadsWith "--".data (trimSpace line) = true
      · rw [stepLine_comment s line hv hs hn hcmt]
      · rw [Bool.not_eq_true] at hcmt
        rw [stepLine_plain s line hv hs hn hcmt]
        cases s.cur <;> rfl

theorem foldl_vars (lines : List Line) :
    ∀ s : PState,
      (lines.foldl stepLine s).vars =
        s.vars ++ (lines.filterMap (fun l => findVarDef (trimSpace l))).map
          (fun p => (p.1, trimSpace p.2)) := by
  induction lines with
  | nil => intro s; simp
  | cons l ls ih =>
    intro s
    rw [List.foldl_cons, ih (stepLine s l)]
    cases hv : findVarDef (trimSpace l) with
    | some p =>
      rw [stepLine_var s l p.1 p.2 (by simpa using hv)]
      simp [List.filterMap_cons, hv]
    | none =>
      rw [stepLine_vars_none s l hv]
      simp [List.filterMap_cons, hv]

/-! ### Parser: the emitted statements ignore the variable table -/

theorem finalize_dropVars (s : PState) :
    finalize s = finalizeOld (dropVars s) := by
  obtain ⟨qs, cur, sls, vs⟩ := s
  rcases cur with _ | q <;> rfl

theorem stepLine_old_sim (s : PState) (line : Line)
    (hv : findVarDef (trimSpace line) = none) :
    dropVars (stepLine s line) = stepLineOld (dropVars s) line := by
  by_cases hs : isSeparatorLine (trimSpace line) = true
  · rw [stepLine_sep s line hv hs]
    obtain ⟨qs, cur, sls, vs⟩ := s
    unfold stepLineOld
    rcases cur with _ | q
    · simp [hs, dropVars, finalize, finalizeOld]
    · by_cases hn : q.name = [] <;>
        simp [hs, hn, dropVars, finalize, finalizeOld]
  · rw [Bool.not_eq_true] at hs
    cases hn : findName line with
    | some nm =>
      rw [stepLine_name s line nm hv hs hn]
      obtain ⟨qs, cur, sls, vs⟩ := s
      unfold stepLineOld
      rcases cur with _ | q <;> simp [hs, hn, dropVars]
    | none =>
      by_cases hcmt : leadsWith "--".data (trimSpace line) = true
      · rw [stepLine_comment s line hv hs hn hcmt]
        obtain ⟨qs, cur, sls, vs⟩ := s
        unfold stepLineOld
        rcases cur with _ | q <;> simp [hs, hn, hcmt, dropVars]
      · rw [Bool.not_eq_true] at hcmt
        rw [stepLine_plain s line hv hs hn hcmt]
        obtain ⟨qs, cur, sls, vs⟩ := s
        unfold stepLineOld
        rcases cur with _ | q <;> simp [hs, hn, hcmt, dropVars]

theorem stepLine_core_congr (s₁ s₂ : PState) (line : Line)
    (h : dropVars s₁ = dropVars s₂) :
    dropVars (stepLine s₁ line) = dropVars (stepLine s₂ line) := by
  cases hv : findVarDef (trimSpace line) with
  | some p =>
    rw [stepLine_var s₁ line p.1 p.2 (by simpa using hv),
      stepLine_var s₂ line p.1 p.2 (by simpa using hv)]
    simpa [dropVars] using h
  | none =>
    rw [stepLine_old_sim s₁ line hv, stepLine_old_sim s₂ line hv, h]

theorem foldl_core_congr (lines : List Line) :
    ∀ s₁ s₂ : PState, dropVars s₁ = dropVars s₂ →
      dropVars (lines.foldl stepLine s₁) = dropVars (lines.foldl stepLine s₂) := by
  induction lines with
  | nil => intro s₁ s₂ h; simpa using h
  | cons l ls ih =>
    intro s₁ s₂ h
    rw [List.foldl_cons, List.foldl_cons]
    exact ih _ _ (stepLine_core_congr s₁ s₂ l h)

theorem foldl_old_sim (lines : List Line) :
    ∀ s : PState, (∀ l ∈ lines, findVarDef (trimSpace l) = none) →
      dropVars (lines.foldl stepLine s) = lines.foldl stepLineOld (dropVars s) := by
  induction lines with
  | nil => intro s _; rfl
  | cons l ls ih =>
    intro s h
    rw [List.foldl_cons, List.foldl_cons, ← stepLine_old_sim s l (h l (by simp))]
    exact ih _ (fun x hx => h x (by simp [hx]))

/-! ### Parser: behaviour inside one block -/

theorem stepLine_content (s : PState) (l : Line)
    (h1 : contentish l = true) (h2 : s.cur.isSome = true) :
    dropVars (stepLine s l) =
      ⟨s.queries, s.cur, s.sqlLines ++ if keepLine l then [l] else []⟩ := by
  rcases Bool.and_eq_true _ _ |>.mp h1 with ⟨hnsep, hnname⟩
  have hs : isSeparatorLine (trimSpace l) = false := by simpa using hnsep
  have hn : findName l = none := by simpa using hnname
  cases hv : findVarDef (trimSpace l) with
  | some p =>
    rw [stepLine_var s l p.1 p.2 (by simpa using hv)]
    simp [dropVars, keepLine, hv]
  | none =>
    by_cases hcmt : leadsWith "--".data (trimSpace l) = true
    · rw [stepLine_comment s l hv hs hn hcmt]
      simp [dropVars, keepLine, hv, hcmt]
    · rw [Bool.not_eq_true] at hcmt
      rw [stepLine_plain s l hv hs hn hcmt]
      cases hc : s.cur with
      | some q => simp [dropVars, keepLine, hv, hcmt]
      | none => rw [hc] at h2; simp at h2

theorem foldl_content (ls : List Line) :
    ∀ s : PState, ls.all contentish = true → s.cur.isSome = true →
      dropVars (ls.foldl stepLine s) =
        ⟨s.queries, s.cur, s.sqlLines ++ ls.filter keepLine⟩ := by
  induction ls with
  | nil => intro s _ _; simp [dropVars]
  | cons l ls ih =>
    intro s hall hcur
    rw [List.all_cons, Bool.and_eq_true] at hall
    rw [List.foldl_cons]
    have hstep := stepLine_content s l hall.1 hcur
    have hq : (stepLine s l).queries = s.queries := congrArg PStateOld.queries hstep
    have hc : (stepLine s l).cur = s.cur := congrArg PStateOld.cur hstep
    have hsl : (stepLine s l).sqlLines = s.sqlLines ++ if keepLine l then [l] else [] :=
      congrArg PStateOld.sqlLines hstep
    have hcur' : (stepLine s l).cur.isSome = true := by rw [hc]; exact hcur
    rw [ih (stepLine s l) hall.2 hcur', hq, hc, hsl]
    by_cases hk : keepLine l = true <;> simp [List.filter_cons, hk]

/-! ### Parser: the canonical name comment -/

theorem dropWhile_spaceTrim_word {l : Line} (h : lineNotWord l = false) :
    l.dropWhile isSpaceTrim = l := by
  cases l with
  | nil => simp [lineNotWord] at h
  | cons c r =>
    have hw : isWordChar c = true := by simpa [lineNotWord] using h
    simp [List.dropWhile_cons, word_not_spaceTrim c hw]

theorem trim_nameLine (nm : Line) (h1 : nm ≠ []) (h2 : nm.all isWordChar = true) :
    trimSpace (nameLine nm) = nameLine nm := by
  have hfront : (nameLine nm).dropWhile isSpaceTrim = nameLine nm := by
    have hdash : isSpaceTrim '-' = false := by decide
    simp [nameLine, List.dropWhile_cons, hdash]
  have hback : (nameLine nm).reverse.dropWhile isSpaceTrim = (nameLine nm).reverse := by
    have : (nameLine nm).reverse = nm.reverse ++ ("-- @name ".data).reverse := by
      simp [nameLine]
    rw [this]
    cases hr : nm.reverse with
    | nil => exact absurd (by simpa using hr) h1
    | cons c r =>
      have hc : c ∈ nm := by
        have : c ∈ nm.reverse := by rw [hr]; simp
        simpa using this
      have hw : isWordChar c = true := by
        rw [List.all_eq_true] at h2
        exact h2 c hc
      simp [List.cons_append, List.dropWhile_cons, word_not_spaceTrim c hw]
  unfold trimSpace
  rw [hfront, hback, List.reverse_reverse]

theorem notSep_nameLine (nm : Line) : isSeparatorLine (nameLine nm) = false := by
  apply Bool.and_eq_false_iff.mpr
  right
  rw [nameLine]
  simp [List.all_cons]

theorem findName_nameLine (nm : Line) (h1 : nm ≠ []) (h2 : nm.all isWordChar = true) :
    findName (nameLine nm) = some nm := by
  have hdw : nm.dropWhile isSpaceRE = nm := by
    cases nm with
    | nil => rfl
    | cons c r =>
      have hw : isWordChar c = true := by
        rw [List.all_eq_true] at h2
        exact h2 c (by simp)
      simp [List.dropWhile_cons, word_not_spaceRE c hw]
  have hmat : matchNameAt ('-' :: '-' :: ' ' :: '@' :: 'n' :: 'a' :: 'm' :: 'e' :: ' ' :: nm) = some nm := by
    rw [matchNameAt]
    simp [leadsWith, List.dropWhile_cons, isSpaceRE, hdw, takeWhile_all h2, h1]
  show findName ('-' :: '-' :: ' ' :: '@' :: 'n' :: 'a' :: 'm' :: 'e' :: ' ' :: nm) = some nm
  rw [findName, hmat]

theorem stepLine_name_some (s : PState) (line nm : Line) (q : Query)
    (hv : findVarDef (trimSpace line) = none)
    (hs : isSeparatorLine (trimSpace line) = false)
    (hn : findName line = some nm) (hcur : s.cur = some q) :
    stepLine s line = { s with cur := some ⟨nm, q.sql⟩ } := by
  rw [stepLine_name s line nm hv hs hn, hcur]

/-! ### Parser: a file of well-formed delimited blocks -/

theorem foldl_mkFile (bs : List Block) :
    ∀ s : PState, bs.all blockOk = true →
      finalize (List.foldl stepLine s (mkFile bs)) = finalize s ++ bs.map blockQuery := by
  induction bs with
  | nil => intro s _; simp [mkFile, flatten]
  | cons b rest ih =>
    intro s hall
    rw [List.all_cons, Bool.and_eq_true] at hall
    obtain ⟨hb, hrest⟩ := hall
    rw [blockOk] at hb
    simp only [Bool.and_eq_true, decide_eq_true_eq, Option.isNone_iff_eq_none] at hb
    obtain ⟨⟨⟨hne, hword⟩, hnv⟩, hcont⟩ := hb
    have hmk : mkFile (b :: rest) =
        ("---".data :: nameLine b.name :: b.content) ++ mkFile rest := by
      simp [mkFile, blockLines]
    rw [hmk, List.foldl_append, List.foldl_cons, List.foldl_cons,
      stepLine_sep s _ (by decide) (by decide)]
    have htrim := trim_nameLine b.name hne hword
    have hsepn : isSeparatorLine (trimSpace (nameLine b.name)) = false := by
      rw [htrim]; exact notSep_nameLine b.name
    have hfn : findName (nameLine b.name) = some b.name :=
      findName_nameLine b.name hne hword
    have hstep2 :
        stepLine (⟨finalize s, some ⟨[], []⟩, [], s.vars⟩ : PState) (nameLine b.name) =
          (⟨finalize s, some ⟨b.name, []⟩, [], s.vars⟩ : PState) := by
      rw [stepLine_name_some _ _ b.name ⟨[], []⟩ hnv hsepn hfn rfl]
    rw [hstep2, ih _ hrest, finalize_dropVars,
      foldl_content b.content (⟨finalize s, some ⟨b.name, []⟩, [], s.vars⟩ : PState)
        hcont rfl]
    simp [finalizeOld, hne, blockQuery]

/-! ### Parser: every emitted statement has a nonempty name -/

theorem finalize_names (s : PState) (h : ∀ q ∈ s.queries, q.name ≠ []) :
    ∀ q ∈ finalize s, q.name ≠ [] := by
  obtain ⟨qs, cur, sls, vs⟩ := s
  rcases cur with _ | q0
  · exact h
  · by_cases hn : q0.name = []
    · simpa [finalize, hn] using h
    · intro q hq
      rw [finalize] at hq
      simp only [hn, if_neg, List.mem_append, List.mem_singleton, ne_eq,
        not_false_eq_true, if_true] at hq
      rcases hq with hq | hq
      · exact h q hq
      · rw [hq]
        exact hn

theorem stepLine_names (s : PState) (l : Line) (h : ∀ q ∈ s.queries, q.name ≠ []) :
    ∀ q ∈ (stepLine s l).queries, q.name ≠ [] := by
  cases hv : findVarDef (trimSpace l) with
  | some p =>
    rw [stepLine_var s l p.1 p.2 (by simpa using hv)]
    exact h
  | none =>
    by_cases hs : isSeparatorLine (trimSpace l) = true
    · rw [stepLine_sep s l hv hs]
      exact finalize_names s h
    · rw [Bool.not_eq_true] at hs
      cases hn : findName l with
      | some nm =>
        rw [stepLine_name s l nm hv hs hn]
        cases hc : s.cur <;> simpa [hc] using h
      | none =>
        by_cases hcmt : leadsWith "--".data (trimSpace l) = true
        · rw [stepLine_comment s l hv hs hn hcmt]
          exact h
        · rw [Bool.not_eq_true] at hcmt
          rw [stepLine_plain s l hv hs hn hcmt]
          cases hc : s.cur <;> simpa [hc] using h

theorem foldl_names (lines : List Line) :
    ∀ s : PState, (∀ q ∈ s.queries, q.name ≠ []) →
      ∀ q ∈ (lines.foldl stepLine s).queries, q.name ≠ [] := by
  induction lines with
  | nil => intro s h; exact h
  | cons l ls ih =>
    intro s h
    rw [List.foldl_cons]
    exact ih _ (stepLine_names s l h)

/-! ### Parser: reading the finished variable table -/

theorem parseSQL_vars_lookup (lines : List Line) (n : Line) :
    lookupVar (parseSQL lines).2 n = lastDefValue lines n := by
  have hv : (parseSQL lines).2 =
      ((lines.filterMap (fun l => findVarDef (trimSpace l))).map
        (fun p => (p.1, trimSpace p.2))) := by
    simp [parseSQL, foldl_vars]
  rw [hv, lookupVar, lastDefValue, ← List.map_reverse, List.find?_map]
  have hpred : ((fun p : Line × Line => decide (p.1 = n)) ∘
      (fun p : Line × Line => (p.1, trimSpace p.2))) =
        (fun p : Line × Line => decide (p.1 = n)) := rfl
  rw [hpred, Option.map_map]
  rfl

/-! ## The claims -/

/-- C1, counterexample: the claim says a block lying between the start of
the file and the first delimiter line that carries a name annotation
yields a Statement; in the code the current-query pointer is still nil
before the first separator, so the annotation and the content are
discarded and this one-block file parses to zero statements. -/
theorem c1_counterexample :
    (parseSQL ["-- @name Foo".data, "SELECT 1".data, "---".data]).1 = [] := by
  decide

/-- C1, amended: a file with N well-formed name-annotated blocks, each
OPENED by a delimiter line, parses to exactly N Statements in source
order; each Statement's text is the join of the block's non-comment,
non-annotation, non-variable-definition content lines, trimmed of
leading and trailing whitespace (blocks lying before the first delimiter
are discarded instead). -/
theorem c1_parse_blocks (bs : List Block) (h : bs.all blockOk = true) :
    (parseSQL (mkFile bs)).1 = bs.map blockQuery := by
  have hmain := foldl_mkFile bs ⟨[], none, [], []⟩ h
  simpa [parseSQL, finalize] using hmain

/-- C1, witness for the amended theorem at a concrete two-block file. -/
theorem c1_parse_blocks_witness :
    ([⟨"A".data, ["SELECT 1;".data]⟩,
      ⟨"B".data, ["-- note".data, "SELECT 2;".data]⟩] : List Block).all blockOk = true ∧
    (parseSQL (mkFile [⟨"A".data, ["SELECT 1;".data]⟩,
        ⟨"B".data, ["-- note".data, "SELECT 2;".data]⟩])).1 =
      ([⟨"A".data, ["SELECT 1;".data]⟩,
        ⟨"B".data, ["-- note".data, "SELECT 2;".data]⟩] : List Block).map blockQuery :=
  ⟨by decide, c1_parse_blocks _ (by decide)⟩

/-- C2: on a well-formed split of the text into literal pieces and
reference tokens, interpolation replaces exactly the tokens whose name is
stored in the table by the stored value verbatim, leaves the rest, and
never re-scans replacement text: the output is the piece-wise rendering,
in which each stored value is emitted as one indivisible chunk even when it
itself contains an at sign followed by word characters. -/
theorem c2_interpolate_tokens (vars : VarTable) (segs : List Seg)
    (h : segsOk segs = true) :
    interpolateVariables (flatten segs) vars =
      .ok ((segs.map (Seg.render vars)).flatten) := by
  rw [interpolateVariables, interpCore_flatten vars segs h]

/-- C2, witness: the stored value of x is an at sign followed by the name
of another stored variable, and it is not substituted again. -/
theorem c2_interpolate_tokens_witness :
    segsOk [Seg.lit "a ".data, Seg.ref "x".data, Seg.lit " b".data] = true ∧
    interpolateVariables
        (flatten [Seg.lit "a ".data, Seg.ref "x".data, Seg.lit " b".data])
        [("x".data, "@y zz".data), ("y".data, "BAD".data)] =
      .ok (([Seg.lit "a ".data, Seg.ref "x".data, Seg.lit " b".data].map
        (Seg.render [("x".data, "@y zz".data), ("y".data, "BAD".data)])).flatten) :=
  ⟨by decide, c2_interpolate_tokens _ _ (by decide)⟩

/-- C3: the schema-change classifier is true exactly when the lower-cased
text contains one of the eleven schema keywords, and the row-mutation
classifier exactly when it contains one of the four mutation keywords
(update and delete each with a trailing space, delete from, insert). -/
theorem c3_classifiers (s : Line) :
    (containsSchemaChanges s = true ↔
      (strContains (toLowerLine s) "drop table".data = true ∨
       strContains (toLowerLine s) "drop database".data = true ∨
       strContains (toLowerLine s) "drop schema".data = true ∨
       strContains (toLowerLine s) "alter table".data = true ∨
       strContains (toLowerLine s) "alter database".data = true ∨
       strContains (toLowerLine s) "alter schema".data = true ∨
       strContains (toLowerLine s) "create table".data = true ∨
       strContains (toLowerLine s) "create database".data = true ∨
       strContains (toLowerLine s) "create schema".data = true ∨
       strContains (toLowerLine s) "truncate table".data = true ∨
       strContains (toLowerLine s) "truncate".data = true)) ∧
    (containsUpdates s = true ↔
      (strContains (toLowerLine s) "update ".data = true ∨
       strContains (toLowerLine s) "delete ".data = true ∨
       strContains (toLowerLine s) "delete from".data = true ∨
       strContains (toLowerLine s) "insert".data = true)) := by
  constructor <;>
    simp [containsSchemaChanges, containsUpdates, schemaKeywords, updateKeywords,
      List.any_cons, List.any_nil, Bool.or_eq_true]

/-- C4: interpolation never fails — every input yields a success value —
and on a well-formed split in which every reference token's name is
absent from the table, the whole text comes back unchanged, each
unresolved token appearing literally at its original position. -/
theorem c4_unresolved (s : Line) (vars : VarTable) (segs : List Seg)
    (h1 : segsOk segs = true)
    (h2 : segs.all (fun sg =>
      match sg with
      | .ref nm => (lookupVar vars nm).isNone
      | .lit _ => true) = true) :
    (∃ r, interpolateVariables s vars = .ok r) ∧
    interpolateVariables (flatten segs) vars = .ok (flatten segs) := by
  refine ⟨⟨interpCore vars s, rfl⟩, ?_⟩
  rw [interpolateVariables, interpCore_flatten vars segs h1]
  have hmap : segs.map (Seg.render vars) = segs.map Seg.flat := by
    apply List.map_congr_left
    intro sg hsg
    cases sg with
    | lit t => rfl
    | ref nm =>
      rw [List.all_eq_true] at h2
      have := h2 _ hsg
      simp only [Option.isNone_iff_eq_none] at this
      simp [Seg.render, Seg.flat, this]
  rw [hmap]
  rfl

/-- C4, witness: an unresolved reference to the name missing is left as
literal text. -/
theorem c4_unresolved_witness :
    (∃ r, interpolateVariables "q".data [("x".data, "1".data)] = .ok r) ∧
    interpolateVariables
        (flatten [Seg.lit "SELECT ".data, Seg.ref "missing".data])
        [("x".data, "1".data)] =
      .ok (flatten [Seg.lit "SELECT ".data, Seg.ref "missing".data]) :=
  c4_unresolved "q".data [("x".data, "1".data)]
    [Seg.lit "SELECT ".data, Seg.ref "missing".data] (by decide) (by decide)

/-- C5: every Statement emitted by the parser has a nonempty name; in
particular the empty region between two consecutive delimiter lines
yields no Statement, and a nameless block closed by the end of the file
yields no Statement either. -/
theorem c5_nonempty_names (lines : List Line) (q : Query)
    (h : q ∈ (parseSQL lines).1) :
    q.name ≠ [] ∧ (parseSQL ["---".data, "---".data]).1 = [] ∧
      (parseSQL ["---".data, "SELECT 1".data]).1 = [] := by
  refine ⟨?_, by decide, by decide⟩
  have hall : ∀ q' ∈ finalize (lines.foldl stepLine ⟨[], none, [], []⟩), q'.name ≠ [] :=
    finalize_names _ (foldl_names lines _ (by simp))
  exact hall q (by simpa [parseSQL] using h)

/-- C5, witness at a concrete one-statement file. -/
theorem c5_nonempty_names_witness :
    (⟨"A".data, "S".data⟩ : Query).name ≠ [] ∧
      (parseSQL ["---".data, "---".data]).1 = [] ∧
      (parseSQL ["---".data, "SELECT 1".data]).1 = [] :=
  c5_nonempty_names ["---".data, "-- @name A".data, "S".data]
    ⟨"A".data, "S".data⟩ (by decide)

/-- C6: name-annotation recognition is whitespace-insensitive — inside a
delimited block, a dash-dash comment with canonical spacing, one with
extra and trailing spaces, and one with no spaces at all around the name
token all assign the block the statement name Foo. -/
theorem c6_whitespace_names :
    (parseSQL ["---".data, "-- @name Foo".data, "SELECT 1".data]).1 =
        [⟨"Foo".data, "SELECT 1".data⟩] ∧
    (parseSQL ["---".data, "--   @name   Foo   ".data, "SELECT 1".data]).1 =
        [⟨"Foo".data, "SELECT 1".data⟩] ∧
    (parseSQL ["---".data, "--@nameFoo".data, "SELECT 1".data]).1 =
        [⟨"Foo".data, "SELECT 1".data⟩] :=
  ⟨by decide, by decide, by decide⟩

/-- C7: the variable table maps a name to the trimmed literal text
captured on the right-hand side of its last definition in file order
(last write wins); concretely, quotes are retained exactly as written and
a trailing semicolon is not part of the value. -/
theorem c7_variable_table (lines : List Line) (n : Line) :
    lookupVar (parseSQL lines).2 n = lastDefValue lines n ∧
    lookupVar (parseSQL ["SET @status=\"active\";".data, "SET @x = 1;".data,
        "SET @x = 2;".data]).2 "status".data = some "\"active\"".data ∧
    lookupVar (parseSQL ["SET @status=\"active\";".data, "SET @x = 1;".data,
        "SET @x = 2;".data]).2 "x".data = some "2".data :=
  ⟨parseSQL_vars_lookup lines n, by decide, by decide⟩

/-- C8: any line whose trimmed text matches the variable-definition
pattern anywhere — also a dash-dash comment line or a SQL content line —
is treated as a variable definition: the step records the binding and
changes nothing else, and the parsed statements are the same as if the
line were absent, so the line is excluded from every statement's text. -/
theorem c8_substring_vardefs (pre post : List Line) (d n v : Line) (s : PState)
    (h : findVarDef (trimSpace d) = some (n, v)) :
    stepLine s d = { s with vars := s.vars ++ [(n, trimSpace v)] } ∧
    (parseSQL (pre ++ d :: post)).1 = (parseSQL (pre ++ post)).1 := by
  refine ⟨stepLine_var s d n v h, ?_⟩
  simp only [parseSQL]
  rw [finalize_dropVars, finalize_dropVars]
  congr 1
  rw [List.foldl_append, List.foldl_append, List.foldl_cons]
  apply foldl_core_congr
  rw [stepLine_var _ d n v h]
  rfl

/-- C8, witness: a comment line that contains a variable definition is
recorded and excluded from the statement text. -/
theorem c8_substring_vardefs_witness :
    stepLine ⟨[], none, [], []⟩ "-- SET @x = 1".data =
      { (⟨[], none, [], []⟩ : PState) with
          vars := ([] : VarTable) ++ [("x".data, trimSpace "1".data)] } ∧
    (parseSQL (["---".data, "-- @name A".data] ++ "-- SET @x = 1".data ::
        ["SELECT 1".data])).1 =
      (parseSQL (["---".data, "-- @name A".data] ++ ["SELECT 1".data])).1 :=
  c8_substring_vardefs ["---".data, "-- @name A".data] ["SELECT 1".data]
    "-- SET @x = 1".data "x".data "1".data ⟨[], none, [], []⟩ (by decide)

/-- C9: on a file in which no line matches the variable-definition
pattern, the current parser emits exactly the statement sequence of the
earlier, variable-free parser version. -/
theorem c9_refines_old (lines : List Line)
    (h : ∀ l ∈ lines, findVarDef (trimSpace l) = none) :
    (parseSQL lines).1 = parseSQLOld lines := by
  simp only [parseSQL, parseSQLOld]
  rw [finalize_dropVars, foldl_old_sim lines _ h]
  rfl

/-- C9, witness at a concrete variable-free file. -/
theorem c9_refines_old_witness :
    (∀ l ∈ [
      "---".data, "-- @name A".data, "SELECT 1".data],
        findVarDef (trimSpace l) = none) ∧
    (parseSQL ["---".data, "-- @name A".data, "SELECT 1".data]).1 =
      parseSQLOld ["---".data, "-- @name A".data, "SELECT 1".data] :=
  ⟨by decide, c9_refines_old _ (by decide)⟩

/-- C10: interpolation with an empty variable table is the identity. -/
theorem c10_empty_table_identity (s : Line) :
    interpolateVariables s [] = .ok s := by
  rw [interpolateVariables, interpCore_empty]

example : findName "-- @name Foo".data = some "Foo".data := by decide

example : findName "--@nameFoo".data = some "Foo".data := by decide

example : findVarDef "SET @x = 1;".data = some ("x".data, "1".data) := by decide

example : findVarDef (trimSpace "  UPDATE t SET @x = 1".data) = some ("x".data, "1".data) := by decide

example :
    parseSQL ["---".data, "-- @name A".data, "SELECT 1;".data, "---".data] =
      ([⟨"A".data, "SELECT 1;".data⟩], []) := by decide

example : containsSchemaChanges "DROP TABLE users".data = true := by decide

example : containsSchemaChanges "SELECT * FROM users".data = false := by decide

example : containsUpdates "UPDATE users SET x=1".data = true := by decide

example : containsUpdates "CREATE TABLE t (id INT)".data = false := by decide

end Sqlyac
